import Mathlib

/- Verification of the customopt repository: the interval arithmetic module
   (interval.py) and the symbolic automatic differentiation layer (sym.py),
   shallowly embedded over the real numbers. Python floats are modelled as
   reals; scalar exponents are rationals (Python ints and floats are dyadic
   rationals, and is_integer is the denominator-one test); fallible
   operations return Except with an error constructor per ValueError of the
   source. -/

open scoped Classical

noncomputable section

namespace Customopt

/-- Errors raised by the interval module, one constructor per distinct
ValueError or TypeError site in interval.py (plus the math.acos domain
error). -/
inductive IErr where
  | divisorSpansZero
  | negativePowerSpansZero
  | fractionalPowerNegativeBase
  | zeroToNegativeFractionalPower
  | acosOutsideDomain
  | mathDomain

/-- Closed interval of interval.py: a pair of real bounds. -/
structure Interval where
  min_val : ℝ
  max_val : ℝ

/-- The invariant the spec states for Interval: min is at most max. -/
def Interval.invOk (I : Interval) : Prop := I.min_val ≤ I.max_val

/-- Membership of a real number in an interval. -/
def Interval.memI (a : ℝ) (I : Interval) : Prop := I.min_val ≤ a ∧ a ≤ I.max_val

/-- Python min over four values (the list of corner products). -/
def min4 (a b c d : ℝ) : ℝ := min (min (min a b) c) d

/-- Python max over four values (the list of corner products). -/
def max4 (a b c d : ℝ) : ℝ := max (max (max a b) c) d

/-- Interval.__add__ of interval.py. -/
def Interval.add (A B : Interval) : Interval :=
  ⟨A.min_val + B.min_val, A.max_val + B.max_val⟩

/-- Interval.__sub__ of interval.py. -/
def Interval.sub (A B : Interval) : Interval :=
  ⟨A.min_val - B.max_val, A.max_val - B.min_val⟩

/-- Interval.__mul__ of interval.py: min and max of the four corner
products. -/
def Interval.mul (A B : Interval) : Interval :=
  ⟨min4 (A.min_val * B.min_val) (A.min_val * B.max_val)
        (A.max_val * B.min_val) (A.max_val * B.max_val),
   max4 (A.min_val * B.min_val) (A.min_val * B.max_val)
        (A.max_val * B.min_val) (A.max_val * B.max_val)⟩

/-- Interval.__truediv__ of interval.py: fails when the divisor interval
includes zero, else multiplies by the reciprocal endpoints. -/
def Interval.div (A B : Interval) : Except IErr Interval :=
  if B.min_val ≤ 0 ∧ 0 ≤ B.max_val then .error .divisorSpansZero
  else
    .ok ⟨min4 (A.min_val * (1 / B.max_val)) (A.min_val * (1 / B.min_val))
              (A.max_val * (1 / B.max_val)) (A.max_val * (1 / B.min_val)),
         max4 (A.min_val * (1 / B.max_val)) (A.min_val * (1 / B.min_val))
              (A.max_val * (1 / B.max_val)) (A.max_val * (1 / B.min_val))⟩

/-- The epsilon 1e-9 that interval.py substitutes for a zero lower bound in
the even-power branch, and uses as a denominator floor in Acos.valgrad. -/
def eps9 : ℝ := 1 / 1000000000

/-- Positive integer power branch of Interval.__pow__ (lines 88 to 103 of
interval.py), before the final reorder of line 124: the raw
(new_min, new_max) pair, including the conditional swap of the wholly
nonpositive case. -/
def powIntPos (I : Interval) (n : ℕ) : ℝ × ℝ :=
  if 0 ≤ I.min_val then (I.min_val ^ n, I.max_val ^ n)
  else if I.max_val ≤ 0 then
    if I.min_val ^ n < I.max_val ^ n then (I.min_val ^ n, I.max_val ^ n)
    else (I.max_val ^ n, I.min_val ^ n)
  else
    if n % 2 = 0 then (eps9, (max |I.min_val| |I.max_val|) ^ n)
    else (I.min_val ^ n, I.max_val ^ n)

/-- Interval.__pow__ of interval.py with a rational scalar exponent (Python
ints and floats are rationals; den = 1 is the is_integer test). The
negative integer branch of the source recurses on the reciprocal interval
raised to the absolute power; that recursive call always takes the positive
integer path followed by the final reorder, which is inlined here. -/
def Interval.pow (I : Interval) (p : ℚ) : Except IErr Interval :=
  if p = 0 then .ok ⟨1, 1⟩
  else if p.den = 1 then
    if 0 < p.num then
      .ok ⟨min (powIntPos I p.num.toNat).1 (powIntPos I p.num.toNat).2,
           max (powIntPos I p.num.toNat).1 (powIntPos I p.num.toNat).2⟩
    else if I.min_val ≤ 0 ∧ 0 ≤ I.max_val then .error .negativePowerSpansZero
    else
      .ok ⟨min (powIntPos ⟨min (1 / I.min_val) (1 / I.max_val),
                  max (1 / I.min_val) (1 / I.max_val)⟩ (-p.num).toNat).1
               (powIntPos ⟨min (1 / I.min_val) (1 / I.max_val),
                  max (1 / I.min_val) (1 / I.max_val)⟩ (-p.num).toNat).2,
           max (powIntPos ⟨min (1 / I.min_val) (1 / I.max_val),
                  max (1 / I.min_val) (1 / I.max_val)⟩ (-p.num).toNat).1
               (powIntPos ⟨min (1 / I.min_val) (1 / I.max_val),
                  max (1 / I.min_val) (1 / I.max_val)⟩ (-p.num).toNat).2⟩
  else
    if I.min_val < 0 then .error .fractionalPowerNegativeBase
    else if I.min_val = 0 ∧ p < 0 then .error .zeroToNegativeFractionalPower
    else
      .ok ⟨min (I.min_val ^ (p : ℝ)) (I.max_val ^ (p : ℝ)),
           max (I.min_val ^ (p : ℝ)) (I.max_val ^ (p : ℝ))⟩

/-- Interval.__neg__ of interval.py. -/
def Interval.neg (I : Interval) : Interval := ⟨-I.max_val, -I.min_val⟩

/-- Critical point scan step of the interval sine (lines 152 to 158 of
interval.py): at a multiple of pi over two lying inside the interval, a sine
value of one raises the running max to one, a value of minus one lowers the
running min to minus one. -/
def sinScanStep (x : Interval) (p : ℝ × ℝ) (k : ℤ) : ℝ × ℝ :=
  let crit := (k : ℝ) * (Real.pi / 2)
  if x.min_val ≤ crit ∧ crit ≤ x.max_val then
    if Real.sin crit = 1 then (p.1, 1)
    else if Real.sin crit = -1 then (-1, p.2)
    else p
  else p

/-- Critical point scan step of the interval cosine (lines 179 to 185 of
interval.py). -/
def cosScanStep (x : Interval) (p : ℝ × ℝ) (k : ℤ) : ℝ × ℝ :=
  let crit := (k : ℝ) * (Real.pi / 2)
  if x.min_val ≤ crit ∧ crit ≤ x.max_val then
    if Real.cos crit = 1 then (p.1, 1)
    else if Real.cos crit = -1 then (-1, p.2)
    else p
  else p

/-- Integer range from a to b inclusive, as Python range(a, b + 1). -/
def intRange (a b : ℤ) : List ℤ := (List.range (b + 1 - a).toNat).map fun i => a + i

/-- Function sin of interval.py: full period collapses to the interval from
minus one to one; otherwise endpoint values refined by the critical point
scan. -/
def intervalSin (x : Interval) : Interval :=
  if 2 * Real.pi ≤ x.max_val - x.min_val then ⟨-1, 1⟩
  else
    let v1 := Real.sin x.min_val
    let v2 := Real.sin x.max_val
    let ks := intRange ⌊x.min_val / (Real.pi / 2)⌋ ⌈x.max_val / (Real.pi / 2)⌉
    let r := ks.foldl (sinScanStep x) (min v1 v2, max v1 v2)
    ⟨r.1, r.2⟩

/-- Function cos of interval.py. -/
def intervalCos (x : Interval) : Interval :=
  if 2 * Real.pi ≤ x.max_val - x.min_val then ⟨-1, 1⟩
  else
    let v1 := Real.cos x.min_val
    let v2 := Real.cos x.max_val
    let ks := intRange ⌊x.min_val / (Real.pi / 2)⌋ ⌈x.max_val / (Real.pi / 2)⌉
    let r := ks.foldl (cosScanStep x) (min v1 v2, max v1 v2)
    ⟨r.1, r.2⟩

/-- Function math.acos: fails with a math domain error outside the closed
interval from minus one to one. -/
def macos (v : ℝ) : Except IErr ℝ :=
  if v < -1 ∨ 1 < v then .error .mathDomain else .ok (Real.arccos v)

/-- Function acos of interval.py: the guard catches an interval entirely
outside the domain; the math.acos calls on the endpoints fail on any
endpoint outside it. -/
def intervalAcos (x : Interval) : Except IErr Interval :=
  if x.max_val < -1 ∨ 1 < x.min_val then .error .acosOutsideDomain
  else
    match macos x.max_val with
    | .error e => .error e
    | .ok new_min =>
      match macos x.min_val with
      | .error e => .error e
      | .ok new_max => .ok ⟨new_min, new_max⟩

/-- Errors raised during node construction in sym.py: dividing a node by the
scalar zero (ZeroDivisionError from 1/other) and folding acos of a scalar
outside the function domain (ValueError from math.acos). -/
inductive CErr where
  | zeroDivisionScalar
  | mathDomainScalar

/-- Expression nodes of sym.py (Sym variable, Add, Mul, Pow, Sin, Cos, Acos).
The Python object id, set by every constructor as self.key, is modelled as an
explicit key field; scalar constants carried by Add and Mul are reals, the
Pow exponent is a rational (a Python int or float). -/
inductive Node where
  | var (name : String) (key : ℕ)
  | add (l : List Node) (c : ℝ) (key : ℕ)
  | mul (l : List Node) (c : ℝ) (key : ℕ)
  | pow (a : Node) (b : ℚ) (key : ℕ)
  | sin (a : Node) (key : ℕ)
  | cos (a : Node) (key : ℕ)
  | acos (a : Node) (key : ℕ)

/-- The identity key of a node (self.key in sym.py). -/
def Node.key : Node → ℕ
  | .var _ k | .add _ _ k | .mul _ _ k | .pow _ _ k
  | .sin _ k | .cos _ k | .acos _ k => k

/-- A construction operand or result: either a plain Python scalar or an
expression node (the duck typed union sym.py passes around). -/
inductive SymExpr where
  | const (c : ℝ)
  | node (n : Node)

/-- Modelled from the spec: sym.py imports isconst from the matrix module,
but matrix.py defines no isconst, so this scalar test is taken from the
words of the spec (a scalar operand merges into the accumulated constant
instead of becoming a list entry): it holds exactly for a plain scalar
operand. -/
def isconst : SymExpr → Bool
  | .const _ => true
  | .node _ => false

/-- A node holds with this property exactly when it is an Add node
(isinstance(self, Add)). -/
def Node.IsAdd : Node → Prop
  | .add _ _ _ => True
  | _ => False

/-- A node holds with this property exactly when it is a Mul node
(isinstance(self, Mul)). -/
def Node.IsMul : Node → Prop
  | .mul _ _ _ => True
  | _ => False

/-- Sym.__add__ of sym.py, restructured by the kind of the operand: a scalar
equal to zero returns the receiver unchanged, a scalar folds into the
accumulated constant, an Add receiver flattens, same kinds concatenate. The
key argument is the id of the Add object a branch allocates; branches
returning an existing object ignore it. -/
def symAdd (self : Node) (other : SymExpr) (k : ℕ) : Node :=
  match other with
  | .const q =>
    if q = 0 then self
    else
      match self with
      | .add l c _ => .add l (c + q) k
      | _ => .add [self] q k
  | .node nb =>
    match self with
    | .add l c _ =>
      match nb with
      | .add l2 c2 _ => .add (l ++ l2) (c + c2) k
      | _ => .add (l ++ [nb]) c k
    | _ => .add [self, nb] 0 k

/-- Sym.__mul__ of sym.py: one returns the receiver, zero collapses to the
scalar zero, scalars fold into the multiplicative constant, a Mul receiver
flattens. -/
def symMul (self : Node) (other : SymExpr) (k : ℕ) : SymExpr :=
  match other with
  | .const q =>
    if q = 1 then .node self
    else if q = 0 then .const 0
    else
      match self with
      | .mul l c _ => .node (.mul l (c * q) k)
      | _ => .node (.mul [self] q k)
  | .node nb =>
    match self with
    | .mul l c _ =>
      match nb with
      | .mul l2 c2 _ => .node (.mul (l ++ l2) (c * c2) k)
      | _ => .node (.mul (l ++ [nb]) c k)
    | _ => .node (.mul [self, nb] 1 k)

/-- Sym.__neg__ of sym.py: multiplication by minus one. -/
def symNeg (self : Node) (k : ℕ) : SymExpr := symMul self (.const (-1)) k

/-- Sym.__sub__ of sym.py: zero returns the receiver, otherwise addition of
the negated operand (k1 is the id of the Mul the negation allocates, k2 of
the Add). -/
def symSub (self : Node) (other : SymExpr) (k1 k2 : ℕ) : Node :=
  match other with
  | .const q => if q = 0 then self else symAdd self (.const (-q)) k2
  | .node nb => symAdd self (symNeg nb k1) k2

/-- Sym.__pow__ of sym.py: exponent zero collapses to the scalar one,
exponent one returns the receiver, a Pow receiver multiplies exponents
instead of nesting. -/
def symPow (self : Node) (other : ℚ) (k : ℕ) : SymExpr :=
  if other = 0 then .const 1
  else if other = 1 then .node self
  else
    match self with
    | .pow a b _ => symPow a (b * other) k
    | _ => .node (.pow self other k)

/-- Sym.__truediv__ of sym.py: one returns the receiver, a scalar divisor
multiplies by its reciprocal (ZeroDivisionError when it is zero), a node
divisor multiplies by the divisor raised to minus one. -/
def symDiv (self : Node) (other : SymExpr) (k1 k2 : ℕ) : Except CErr SymExpr :=
  match other with
  | .const q =>
    if q = 1 then .ok (.node self)
    else if q = 0 then .error .zeroDivisionScalar
    else .ok (symMul self (.const (1 / q)) k2)
  | .node nb => .ok (symMul self (symPow nb (-1) k1) k2)

/-- Sym.sin of sym.py: folds a scalar argument through math.sin, otherwise
builds a Sin node. -/
def symSin (x : SymExpr) (k : ℕ) : SymExpr :=
  match x with
  | .const q => .const (Real.sin q)
  | .node nb => .node (.sin nb k)

/-- Sym.cos of sym.py. -/
def symCos (x : SymExpr) (k : ℕ) : SymExpr :=
  match x with
  | .const q => .const (Real.cos q)
  | .node nb => .node (.cos nb k)

/-- Sym.acos of sym.py: folding a scalar argument calls math.acos, which
fails outside the closed interval from minus one to one. -/
def symAcos (x : SymExpr) (k : ℕ) : Except CErr SymExpr :=
  match x with
  | .const q =>
    if q < -1 ∨ 1 < q then .error .mathDomainScalar
    else .ok (.const (Real.arccos q))
  | .node nb => .ok (.node (.acos nb k))

mutual
/-- All nodes reachable from a node, itself included: the sub DAG as the
list of subterm occurrences. -/
def Node.subs : Node → List Node
  | .var name k => [.var name k]
  | .add l c k => .add l c k :: Node.subsList l
  | .mul l c k => .mul l c k :: Node.subsList l
  | .pow a b k => .pow a b k :: a.subs
  | .sin a k => .sin a k :: a.subs
  | .cos a k => .cos a k :: a.subs
  | .acos a k => .acos a k :: a.subs

def Node.subsList : List Node → List Node
  | [] => []
  | x :: xs => x.subs ++ Node.subsList xs
end

/-- Keys behave like Python object identities inside this DAG: two reachable
nodes with the same key are the same node. -/
def KeyConsistent (root : Node) : Prop :=
  ∀ m1 ∈ root.subs, ∀ m2 ∈ root.subs, m1.key = m2.key → m1 = m2

/-- The binding dictionary passed to the evaluation engines: scalar values
by variable name, and the map entry assigning gradient slots. -/
structure Dic where
  vals : String → ℝ
  map : String → Option ℕ

/-- Function zeros of sym.py: the length n zero gradient. -/
def zeros (n : ℕ) : List ℝ := List.replicate n (0 : ℝ)

/-- Sym.valgrad leaf rule: value looked up by name, one hot gradient at the
mapped index when the name is in the map. -/
def varVG (dic : Dic) (n : ℕ) (name : String) : ℝ × List ℝ :=
  (dic.vals name,
    match dic.map name with
    | some i => (zeros n).set i 1
    | none => zeros n)

/-- Elementwise gradient update of Add.valgrad: for i in range(n), add the
components. -/
def gradAdd (n : ℕ) (g1 g2 : List ℝ) : List ℝ :=
  (List.range n).map fun i => g1.getD i 0 + g2.getD i 0

/-- Combination rule of Add.valgrad over the children results: sum of values
on top of the accumulated constant, elementwise sum of gradients. -/
def combineAdd (n : ℕ) (c : ℝ) (vgs : List (ℝ × List ℝ)) : ℝ × List ℝ :=
  (vgs.foldl (fun v p => v + p.1) c,
   vgs.foldl (fun g p => gradAdd n g p.2) (zeros n))

/-- Combination rule of Mul.valgrad: running product of child values times
the constant; each operand contributes its gradient scaled by the product of
the other operand values and the constant. -/
def combineMul (n : ℕ) (c : ℝ) (vgs : List (ℝ × List ℝ)) : ℝ × List ℝ :=
  let vals := vgs.map Prod.fst
  let grads := vgs.map Prod.snd
  let val := vals.foldl (fun v x => v * x) c
  let grad := (List.range vgs.length).foldl
    (fun g k =>
      let prod := (vals.eraseIdx k).foldl (fun v x => v * x) c
      (List.range n).map fun i => g.getD i 0 + (grads.getD k []).getD i 0 * prod)
    (zeros n)
  (val, grad)

/-- Combination rule of Pow.valgrad: val is the base value raised to the
exponent, grad is exponent times base to the exponent minus one times the
base gradient. -/
def combinePow (n : ℕ) (b : ℚ) (va : ℝ) (ga : List ℝ) : ℝ × List ℝ :=
  (va ^ (b : ℝ), (List.range n).map fun i => (b : ℝ) * va ^ ((b : ℝ) - 1) * ga.getD i 0)

/-- Combination rule of Sin.valgrad. -/
def combineSin (n : ℕ) (va : ℝ) (ga : List ℝ) : ℝ × List ℝ :=
  (Real.sin va, (List.range n).map fun i => Real.cos va * ga.getD i 0)

/-- Combination rule of Cos.valgrad. -/
def combineCos (n : ℕ) (va : ℝ) (ga : List ℝ) : ℝ × List ℝ :=
  (Real.cos va, (List.range n).map fun i => -Real.sin va * ga.getD i 0)

/-- Combination rule of Acos.valgrad: saturates to zero at a base value of at
least one and to pi at a base value of at most minus one, with a zero
gradient; otherwise the arccosine with the epsilon floored denominator. -/
def combineAcos (n : ℕ) (va : ℝ) (ga : List ℝ) : ℝ × List ℝ :=
  if 1 ≤ va then (0, zeros n)
  else if va ≤ -1 then (Real.pi, zeros n)
  else
    let den := max eps9 (Real.sqrt (1 - va ^ 2))
    (Real.arccos va, (List.range n).map fun i => -ga.getD i 0 / den)

mutual
/-- The val engine of sym.py: plain recursive evaluation, with the
saturating arccosine policy of Acos.val. -/
def Node.val : Node → Dic → ℝ
  | .var name _, dic => dic.vals name
  | .add l c _, dic => (Node.valList l dic).foldl (fun v x => v + x) c
  | .mul l c _, dic => (Node.valList l dic).foldl (fun v x => v * x) c
  | .pow a b _, dic => a.val dic ^ (b : ℝ)
  | .sin a _, dic => Real.sin (a.val dic)
  | .cos a _, dic => Real.cos (a.val dic)
  | .acos a _, dic =>
    let v := a.val dic
    if 1 ≤ v then 0 else if v ≤ -1 then Real.pi else Real.arccos v

def Node.valList : List Node → Dic → List ℝ
  | [], _ => []
  | x :: xs, dic => x.val dic :: Node.valList xs dic
end

mutual
/-- Plain recursive value and gradient evaluation: the reference engine the
memoized valgrad is compared against, applying exactly the combination rules
of sym.py with no cache. -/
def valgradU : Node → Dic → ℕ → ℝ × List ℝ
  | .var name _, dic, n => varVG dic n name
  | .add l c _, dic, n => combineAdd n c (valgradUList l dic n)
  | .mul l c _, dic, n => combineMul n c (valgradUList l dic n)
  | .pow a b _, dic, n =>
    let r := valgradU a dic n
    combinePow n b r.1 r.2
  | .sin a _, dic, n =>
    let r := valgradU a dic n
    combineSin n r.1 r.2
  | .cos a _, dic, n =>
    let r := valgradU a dic n
    combineCos n r.1 r.2
  | .acos a _, dic, n =>
    let r := valgradU a dic n
    combineAcos n r.1 r.2

def valgradUList : List Node → Dic → ℕ → List (ℝ × List ℝ)
  | [], _, _ => []
  | x :: xs, dic, n => valgradU x dic n :: valgradUList xs dic n
end

/-- The per call cache of valgrad: key to value and gradient pair, newest
binding first, as the Python dict behaves under lookup and insertion. -/
abbrev Cache := List (ℕ × (ℝ × List ℝ))

mutual
/-- The valgrad engine of sym.py: before computing a node the cache is
checked by the node key; a hit returns without recomputation, a miss
computes the children left to right threading the cache, combines, and
stores the result under the node key. -/
def valgradC : Node → Dic → ℕ → Cache → (ℝ × List ℝ) × Cache
  | .var name k, dic, n, cache =>
    match cache.lookup k with
    | some vg => (vg, cache)
    | none =>
      let vg := varVG dic n name
      (vg, (k, vg) :: cache)
  | .add l c k, dic, n, cache =>
    match cache.lookup k with
    | some vg => (vg, cache)
    | none =>
      let r := valgradCList l dic n cache
      let vg := combineAdd n c r.1
      (vg, (k, vg) :: r.2)
  | .mul l c k, dic, n, cache =>
    match cache.lookup k with
    | some vg => (vg, cache)
    | none =>
      let r := valgradCList l dic n cache
      let vg := combineMul n c r.1
      (vg, (k, vg) :: r.2)
  | .pow a b k, dic, n, cache =>
    match cache.lookup k with
    | some vg => (vg, cache)
    | none =>
      let r := valgradC a dic n cache
      let vg := combinePow n b r.1.1 r.1.2
      (vg, (k, vg) :: r.2)
  | .sin a k, dic, n, cache =>
    match cache.lookup k with
    | some vg => (vg, cache)
    | none =>
      let r := valgradC a dic n cache
      let vg := combineSin n r.1.1 r.1.2
      (vg, (k, vg) :: r.2)
  | .cos a k, dic, n, cache =>
    match cache.lookup k with
    | some vg => (vg, cache)
    | none =>
      let r := valgradC a dic n cache
      let vg := combineCos n r.1.1 r.1.2
      (vg, (k, vg) :: r.2)
  | .acos a k, dic, n, cache =>
    match cache.lookup k with
    | some vg => (vg, cache)
    | none =>
      let r := valgradC a dic n cache
      let vg := combineAcos n r.1.1 r.1.2
      (vg, (k, vg) :: r.2)

def valgradCList : List Node → Dic → ℕ → Cache → List (ℝ × List ℝ) × Cache
  | [], _, _, cache => ([], cache)
  | x :: xs, dic, n, cache =>
    let r1 := valgradC x dic n cache
    let r2 := valgradCList xs dic n r1.2
    (r1.1 :: r2.1, r2.2)
end

/-- Every cache entry records the key and the uncached result of a node
reachable from the root. -/
def CacheInv (root : Node) (dic : Dic) (n : ℕ) (cache : Cache) : Prop :=
  ∀ k vg, cache.lookup k = some vg →
    ∃ m, m ∈ root.subs ∧ m.key = k ∧ valgradU m dic n = vg

/-- Everything one memoized evaluation step guarantees for a node: it returns
the uncached result, keeps the cache invariant, preserves existing entries,
adds only keys of reachable nodes, and keeps the key list duplicate free (so
each node is computed at most once per call). -/
def StepOK (root : Node) (dic : Dic) (n : ℕ) (m : Node) (cache : Cache) : Prop :=
  (valgradC m dic n cache).1 = valgradU m dic n
  ∧ CacheInv root dic n (valgradC m dic n cache).2
  ∧ (∀ k v, cache.lookup k = some v → (valgradC m dic n cache).2.lookup k = some v)
  ∧ (∀ k, k ∈ (valgradC m dic n cache).2.map Prod.fst →
      k ∈ cache.map Prod.fst ∨ ∃ y ∈ m.subs, y.key = k)
  ∧ ((cache.map Prod.fst).Nodup → ((valgradC m dic n cache).2.map Prod.fst).Nodup)

/-- The same guarantees for the left to right evaluation of an operand
list. -/
def StepOKL (root : Node) (dic : Dic) (n : ℕ) (l : List Node) (cache : Cache) : Prop :=
  (valgradCList l dic n cache).1 = valgradUList l dic n
  ∧ CacheInv root dic n (valgradCList l dic n cache).2
  ∧ (∀ k v, cache.lookup k = some v →
      (valgradCList l dic n cache).2.lookup k = some v)
  ∧ (∀ k, k ∈ (valgradCList l dic n cache).2.map Prod.fst →
      k ∈ cache.map Prod.fst ∨ ∃ y ∈ Node.subsList l, y.key = k)
  ∧ ((cache.map Prod.fst).Nodup →
      ((valgradCList l dic n cache).2.map Prod.fst).Nodup)

/-- The binding dictionary of the autodiff correctness test: x is three, y is
zero, x maps to slot zero and y to slot one. -/
def dicC8 : Dic :=
  ⟨fun s => if s = "x" then 3 else if s = "y" then 0 else 0,
   fun s => if s = "x" then some 0 else if s = "y" then some 1 else none⟩

/-- A binding dictionary sending every variable to two, with no index map
entries: a concrete input beyond the arccosine saturation boundary. -/
def dicC9 : Dic := ⟨fun _ => 2, fun _ => none⟩

/-- A fold preserves any invariant its step preserves. -/
lemma foldl_inv {α β : Type} (P : β → Prop) (f : β → α → β)
    (hf : ∀ b a, P b → P (f b a)) : ∀ (l : List α) (b : β), P b → P (l.foldl f b) := by
  intro l
  induction l with
  | nil => intro b h; exact h
  | cons a l ih => intro b h; exact ih _ (hf b a h)

lemma min4_le_a (a b c d : ℝ) : min4 a b c d ≤ a :=
  le_trans (min_le_left _ _) (le_trans (min_le_left _ _) (min_le_left _ _))

lemma min4_le_b (a b c d : ℝ) : min4 a b c d ≤ b :=
  le_trans (min_le_left _ _) (le_trans (min_le_left _ _) (min_le_right _ _))

lemma min4_le_c (a b c d : ℝ) : min4 a b c d ≤ c :=
  le_trans (min_le_left _ _) (min_le_right _ _)

lemma min4_le_d (a b c d : ℝ) : min4 a b c d ≤ d := min_le_right _ _

lemma le_max4_a (a b c d : ℝ) : a ≤ max4 a b c d :=
  le_trans (le_trans (le_max_left _ _) (le_max_left _ _)) (le_max_left _ _)

lemma le_max4_b (a b c d : ℝ) : b ≤ max4 a b c d :=
  le_trans (le_trans (le_max_right _ _) (le_max_left _ _)) (le_max_left _ _)

lemma le_max4_c (a b c d : ℝ) : c ≤ max4 a b c d :=
  le_trans (le_max_right _ _) (le_max_left _ _)

lemma le_max4_d (a b c d : ℝ) : d ≤ max4 a b c d := le_max_right _ _

/-- A product with one factor between two bounds lies between the two
endpoint products. -/
lemma mul_between (x y y1 y2 : ℝ) (h1 : y1 ≤ y) (h2 : y ≤ y2) :
    min (x * y1) (x * y2) ≤ x * y ∧ x * y ≤ max (x * y1) (x * y2) := by
  rcases le_or_lt 0 x with hx | hx
  · constructor
    · exact le_trans (min_le_left _ _) (mul_le_mul_of_nonneg_left h1 hx)
    · exact le_trans (mul_le_mul_of_nonneg_left h2 hx) (le_max_right _ _)
  · constructor
    · exact le_trans (min_le_right _ _) (mul_le_mul_of_nonpos_left h2 hx.le)
    · exact le_trans (mul_le_mul_of_nonpos_left h1 hx.le) (le_max_left _ _)

/-- Soundness of the four corner products: a product of factors drawn from
two intervals lies between the min and the max of the corner products. -/
lemma corner_bounds (x y x1 x2 y1 y2 : ℝ)
    (hx1 : x1 ≤ x) (hx2 : x ≤ x2) (hy1 : y1 ≤ y) (hy2 : y ≤ y2) :
    min4 (x1 * y1) (x1 * y2) (x2 * y1) (x2 * y2) ≤ x * y ∧
    x * y ≤ max4 (x1 * y1) (x1 * y2) (x2 * y1) (x2 * y2) := by
  obtain ⟨hl, hr⟩ := mul_between x y y1 y2 hy1 hy2
  obtain ⟨hl1, hr1⟩ := mul_between y1 x x1 x2 hx1 hx2
  obtain ⟨hl2, hr2⟩ := mul_between y2 x x1 x2 hx1 hx2
  have m1 := min4_le_a (x1 * y1) (x1 * y2) (x2 * y1) (x2 * y2)
  have m2 := min4_le_b (x1 * y1) (x1 * y2) (x2 * y1) (x2 * y2)
  have m3 := min4_le_c (x1 * y1) (x1 * y2) (x2 * y1) (x2 * y2)
  have m4 := min4_le_d (x1 * y1) (x1 * y2) (x2 * y1) (x2 * y2)
  have M1 := le_max4_a (x1 * y1) (x1 * y2) (x2 * y1) (x2 * y2)
  have M2 := le_max4_b (x1 * y1) (x1 * y2) (x2 * y1) (x2 * y2)
  have M3 := le_max4_c (x1 * y1) (x1 * y2) (x2 * y1) (x2 * y2)
  have M4 := le_max4_d (x1 * y1) (x1 * y2) (x2 * y1) (x2 * y2)
  constructor
  · rcases min_le_iff.mp hl with h | h <;>
      [rcases min_le_iff.mp hl1 with h1 | h1; rcases min_le_iff.mp hl2 with h1 | h1] <;>
      nlinarith [h, h1]
  · rcases le_max_iff.mp hr with h | h <;>
      [rcases le_max_iff.mp hr1 with h1 | h1; rcases le_max_iff.mp hr2 with h1 | h1] <;>
      nlinarith [h, h1]

/-- C6: constructing (x + y) + 2 and then adding 3, for variables x and y,
yields a single Add node with operand list [x, y] and accumulated constant
5, never a nested Add; the scalar operands merge into the accumulated
constant instead of becoming operand list entries. -/
theorem C6_flattening (nx ny : String) (kx ky k1 k2 k3 : ℕ) :
    symAdd (symAdd (symAdd (.var nx kx) (.node (.var ny ky)) k1) (.const 2) k2)
        (.const 3) k3
      = .add [.var nx kx, .var ny ky] 5 k3 := by
  norm_num [symAdd]

/-- C10: when the left operand is not itself an Add (resp. Mul), adding
(resp. multiplying) it with an Add (resp. Mul) node keeps the right node
nested as a single operand: the result is a new two operand node with the
neutral constant, with no concatenation of the lists. -/
theorem C10_left_biased_flattening (a : Node) (l l2 : List Node) (c c2 : ℝ)
    (k0 k0m k km : ℕ) :
    (¬ a.IsAdd → symAdd a (.node (.add l c k0)) k = .add [a, .add l c k0] 0 k)
    ∧ (¬ a.IsMul → symMul a (.node (.mul l2 c2 k0m)) km
        = .node (.mul [a, .mul l2 c2 k0m] 1 km)) := by
  cases a <;> simp [symAdd, symMul, Node.IsAdd, Node.IsMul]

/-- C2 counterexample: dividing a node by the plain scalar zero raises
ZeroDivisionError (the source computes 1/other), so construction is not
failure free as claimed. -/
theorem C2_counterexample :
    symDiv (.var "x" 0) (.const 0) 1 2 = .error .zeroDivisionScalar := by
  norm_num [symDiv]

/-- C2 amended: with the scalar test isconst modelled from the spec (matrix.py
defines no isconst, so the import in sym.py itself fails), the construction
operators add, mul, pow, neg, sub, sin and cos are total, and the two
fallible ones fail in exactly one case each: division fails exactly on the
scalar divisor zero, and acos fails exactly on a scalar operand outside the
closed interval from minus one to one. -/
theorem C2_construction_failures (a : Node) (o x : SymExpr) (k1 k2 k : ℕ) :
    ((∃ e, symDiv a o k1 k2 = .error e) ↔ o = .const 0)
    ∧ ((∃ e, symAcos x k = .error e) ↔ ∃ q, x = .const q ∧ (q < -1 ∨ 1 < q)) := by
  constructor
  · cases o with
    | const q =>
      by_cases h1 : q = 1
      · subst h1; simp [symDiv]
      · by_cases h0 : q = 0
        · subst h0; simp [symDiv]
        · simp [symDiv, h1, h0]
    | node nb => simp [symDiv]
  · cases x with
    | const q =>
      by_cases hd : q < -1 ∨ 1 < q
      · simp [symAcos, hd]
      · simp [symAcos, hd]
    | node nb => simp [symAcos]

/-- C4 counterexample: the interval from minus two to one half does not meet
the claimed failure condition (its max is not below minus one and its min is
not above one), yet acos on it fails, because math.acos is called on the
lower endpoint minus two; so acos does not return (acos(max), acos(min))
whenever that condition is false. -/
theorem C4_counterexample :
    ¬((Interval.mk (-2) (1/2)).max_val < -1 ∨ 1 < (Interval.mk (-2) (1/2)).min_val)
    ∧ intervalAcos ⟨-2, 1/2⟩ = .error .mathDomain := by
  constructor
  · norm_num
  · norm_num [intervalAcos, macos]

/-- C4 amended: interval acos fails with a domain error exactly when part of
the interval lies outside the function domain, that is when min is below
minus one or max is above one (the guard catches an interval entirely
outside, the math.acos endpoint calls catch partial overlap); on an interval
inside the domain it returns (acos(max), acos(min)); in particular the
interval from minus two to one half fails and the interval from minus one
to one maps to (0, pi). -/
theorem C4_acos_policy (x : Interval) (hinv : x.invOk) :
    ((-1 ≤ x.min_val ∧ x.max_val ≤ 1) →
      intervalAcos x = .ok ⟨Real.arccos x.max_val, Real.arccos x.min_val⟩)
    ∧ ((x.min_val < -1 ∨ 1 < x.max_val) → ∃ e, intervalAcos x = .error e)
    ∧ intervalAcos ⟨-2, 1/2⟩ = .error .mathDomain
    ∧ intervalAcos ⟨-1, 1⟩ = .ok ⟨0, Real.pi⟩ := by
  have hiv : x.min_val ≤ x.max_val := hinv
  refine ⟨?_, ?_, ?_, ?_⟩
  · rintro ⟨h1, h2⟩
    have g1 : ¬(x.max_val < -1 ∨ 1 < x.min_val) := by
      push_neg
      constructor <;> linarith
    have g2 : ¬(x.max_val < -1 ∨ 1 < x.max_val) := by
      push_neg
      constructor <;> linarith
    have g3 : ¬(x.min_val < -1 ∨ 1 < x.min_val) := by
      push_neg
      constructor <;> linarith
    simp [intervalAcos, macos, g1, g2, g3]
  · intro h
    by_cases h1 : x.max_val < -1 ∨ 1 < x.min_val
    · exact ⟨.acosOutsideDomain, by simp [intervalAcos, h1]⟩
    · by_cases h2 : x.max_val < -1 ∨ 1 < x.max_val
      · exact ⟨.mathDomain, by simp [intervalAcos, macos, h1, h2]⟩
      · by_cases h3 : x.min_val < -1 ∨ 1 < x.min_val
        · exact ⟨.mathDomain, by simp [intervalAcos, macos, h1, h2, h3]⟩
        · push_neg at h2 h3
          rcases h with h | h
          · exact absurd h (not_lt.mpr h3.1)
          · exact absurd h (not_lt.mpr h2.2)
  · norm_num [intervalAcos, macos]
  · norm_num [intervalAcos, macos, Real.arccos_one, Real.arccos_neg_one]

/-- C4 witness: the amended policy applied to the concrete interval from
minus one to one. -/
theorem C4_witness : intervalAcos ⟨-1, 1⟩ = .ok ⟨0, Real.pi⟩ :=
  (C4_acos_policy ⟨-1, 1⟩ (by norm_num [Interval.invOk])).2.2.2

/-- The square of the interval from minus two to three as the source
computes it: the lower bound is the epsilon, the upper bound nine. -/
lemma pow_neg_two_three_sq : Interval.pow ⟨-2, 3⟩ 2 = .ok ⟨eps9, 9⟩ := by
  have hd : (2 : ℚ).den = 1 := rfl
  have hn : (2 : ℚ).num = 2 := rfl
  have ht : (2 : ℤ).toNat = 2 := rfl
  have h1 : ¬(0 : ℝ) ≤ (-2 : ℝ) := by norm_num
  have h2 : ¬(3 : ℝ) ≤ 0 := by norm_num
  have habs : (max |(-2 : ℝ)| |(3 : ℝ)|) = 3 := by
    rw [abs_neg, abs_of_pos (show (0 : ℝ) < 2 by norm_num),
      abs_of_pos (show (0 : ℝ) < 3 by norm_num)]
    norm_num
  simp only [Interval.pow, powIntPos, hd, hn, ht, h1, h2, habs, if_false, if_true]
  norm_num [eps9, min_def, max_def]

/-- C5 counterexample: the interval from minus one millionth to one millionth
spans zero, yet its square is not (1e-9, max(abs min, abs max) squared):
the final reorder of the source puts the smaller value 1e-12 first, so the
result is (1e-12, 1e-9) rather than the claimed (1e-9, 1e-12). -/
theorem C5_counterexample :
    (-(1 / 1000000) : ℝ) < 0 ∧ (0 : ℝ) < 1 / 1000000
    ∧ Interval.pow ⟨-(1 / 1000000), 1 / 1000000⟩ 2
        = .ok ⟨1 / 1000000000000, 1 / 1000000000⟩
    ∧ Interval.mk (1 / 1000000000000) (1 / 1000000000)
        ≠ ⟨eps9, (1 : ℝ) / 1000000000000⟩ := by
  refine ⟨by norm_num, by norm_num, ?_, ?_⟩
  · have hd : (2 : ℚ).den = 1 := rfl
    have hn : (2 : ℚ).num = 2 := rfl
    have ht : (2 : ℤ).toNat = 2 := rfl
    have h1 : ¬(0 : ℝ) ≤ -(1 / 1000000) := by norm_num
    have h2 : ¬(1 / 1000000 : ℝ) ≤ 0 := by norm_num
    have habs : (max |(-(1 / 1000000) : ℝ)| |(1 / 1000000 : ℝ)|) = 1 / 1000000 := by
      rw [abs_neg, abs_of_pos (show (0 : ℝ) < 1 / 1000000 by norm_num), max_self]
    simp only [Interval.pow, powIntPos, hd, hn, ht, h1, h2, habs, if_false, if_true]
    norm_num [eps9, min_def, max_def]
  · intro h
    have := congrArg Interval.min_val h
    norm_num [eps9] at this

/-- C5 amended: for an interval spanning zero raised to a positive even
integer power p, the source computes the pair (1e-9, M to the p) with M the
larger absolute endpoint and then reorders it, so the result is
(min(1e-9, M to the p), max(1e-9, M to the p)); whenever M to the p is at
least 1e-9 this is exactly (1e-9, M to the p), and the square of the
interval from minus two to three is (1e-9, 9). -/
theorem C5_even_power_spanning (I : Interval) (p : ℚ)
    (hden : p.den = 1) (hpos : 0 < p.num) (heven : p.num % 2 = 0)
    (hmin : I.min_val < 0) (hmax : 0 < I.max_val) :
    Interval.pow I p
      = .ok ⟨min eps9 ((max |I.min_val| |I.max_val|) ^ p.num.toNat),
             max eps9 ((max |I.min_val| |I.max_val|) ^ p.num.toNat)⟩
    ∧ Interval.pow ⟨-2, 3⟩ 2 = .ok ⟨eps9, 9⟩ := by
  constructor
  · have hp0 : p ≠ 0 := by
      intro h
      rw [h] at hpos
      exact absurd hpos (by norm_num)
    have h1 : ¬(0 : ℝ) ≤ I.min_val := not_le.mpr hmin
    have h2 : ¬I.max_val ≤ 0 := not_le.mpr hmax
    have hm2 : p.num.toNat % 2 = 0 := by omega
    simp only [Interval.pow, powIntPos, hp0, hden, hpos, h1, h2, hm2,
      if_false, if_true]
  · exact pow_neg_two_three_sq

/-- C5 witness: the amended rule applied to the square of the interval from
minus two to three. -/
theorem C5_witness : Interval.pow ⟨-2, 3⟩ 2 = .ok ⟨eps9, 9⟩ :=
  (C5_even_power_spanning ⟨-2, 3⟩ 2 rfl (by norm_num) rfl (by norm_num)
    (by norm_num)).2

/-- C8: the expression f built as x squared plus sin(y) from the variables x
and y, evaluated by the memoized valgrad with bindings x three and y zero,
index map x to slot zero and y to slot one and dimension two, returns value
nine and gradient six comma one; the first three conjuncts record that the
construction operators build exactly that Add node. -/
theorem C8_autodiff :
    symPow (.var "x" 0) 2 1 = .node (.pow (.var "x" 0) 2 1)
    ∧ symSin (.node (.var "y" 2)) 3 = .node (.sin (.var "y" 2) 3)
    ∧ symAdd (.pow (.var "x" 0) 2 1) (.node (.sin (.var "y" 2) 3)) 4
        = .add [.pow (.var "x" 0) 2 1, .sin (.var "y" 2) 3] 0 4
    ∧ (valgradC (.add [.pow (.var "x" 0) 2 1, .sin (.var "y" 2) 3] 0 4)
          dicC8 2 []).1 = (9, [6, 1]) := by
  refine ⟨?_, rfl, rfl, ?_⟩
  · norm_num [symPow]
  · have h32 : (3 : ℝ) ^ ((2 : ℚ) : ℝ) = 9 := by
      rw [show ((2 : ℚ) : ℝ) = ((2 : ℕ) : ℝ) by norm_num, Real.rpow_natCast]
      norm_num
    have h31 : (3 : ℝ) ^ (((2 : ℚ) : ℝ) - 1) = 3 := by
      rw [show ((2 : ℚ) : ℝ) - 1 = 1 by norm_num, Real.rpow_one]
    simp [valgradC, valgradCList, dicC8, varVG, zeros, combineAdd, combineMul,
      combinePow, combineSin, gradAdd, List.lookup, h32, h31, Real.sin_zero,
      Real.cos_zero, List.range_succ]
    norm_num

/-- A value between two reals in either order belongs to the reordered
interval on them. -/
lemma memI_pair (x y v : ℝ) (h : (x ≤ v ∧ v ≤ y) ∨ (y ≤ v ∧ v ≤ x)) :
    Interval.memI v ⟨min x y, max x y⟩ := by
  rcases h with ⟨h1, h2⟩ | ⟨h1, h2⟩
  · exact ⟨le_trans (min_le_left _ _) h1, le_trans h2 (le_max_right _ _)⟩
  · exact ⟨le_trans (min_le_right _ _) h1, le_trans h2 (le_max_left _ _)⟩

/-- Rational with denominator one casts to the real of its numerator. -/
lemma rat_cast_den_one (p : ℚ) (h : p.den = 1) : (p : ℝ) = (p.num : ℝ) := by
  conv_lhs => rw [← Rat.num_div_den p]
  rw [h]
  push_cast
  simp

/-- Soundness of the positive integer power branch after the final reorder,
except that in the zero spanning even case only powers at least the epsilon
are guaranteed to be contained. -/
lemma powIntPos_sound (I : Interval) (n : ℕ) (a : ℝ)
    (ha1 : I.min_val ≤ a) (ha2 : a ≤ I.max_val)
    (hside : ¬(I.min_val < 0 ∧ 0 < I.max_val) ∨ n % 2 = 1 ∨ eps9 ≤ a ^ n) :
    Interval.memI (a ^ n)
      ⟨min (powIntPos I n).1 (powIntPos I n).2,
       max (powIntPos I n).1 (powIntPos I n).2⟩ := by
  by_cases h1 : 0 ≤ I.min_val
  · rw [powIntPos, if_pos h1]
    exact memI_pair _ _ _ (Or.inl ⟨pow_le_pow_left h1 ha1 n,
      pow_le_pow_left (h1.trans ha1) ha2 n⟩)
  · have hmin : I.min_val < 0 := not_le.mp h1
    by_cases h2 : I.max_val ≤ 0
    · -- wholly nonpositive: the result is the ordered pair of the two
      -- endpoint powers in one order or the other
      have hna : a ≤ 0 := ha2.trans h2
      have hbetween : (I.max_val ^ n ≤ a ^ n ∧ a ^ n ≤ I.min_val ^ n)
          ∨ (I.min_val ^ n ≤ a ^ n ∧ a ^ n ≤ I.max_val ^ n) := by
        rcases Nat.even_or_odd n with he | ho
        · refine Or.inl ⟨?_, ?_⟩
          · rw [← Even.pow_abs he I.max_val, ← Even.pow_abs he a]
            refine pow_le_pow_left (abs_nonneg _) ?_ n
            rw [abs_of_nonpos h2, abs_of_nonpos hna]
            linarith
          · rw [← Even.pow_abs he I.min_val, ← Even.pow_abs he a]
            refine pow_le_pow_left (abs_nonneg _) ?_ n
            rw [abs_of_nonpos hmin.le, abs_of_nonpos hna]
            linarith
        · exact Or.inr ⟨ho.strictMono_pow.monotone ha1,
            ho.strictMono_pow.monotone ha2⟩
      by_cases hsw : I.min_val ^ n < I.max_val ^ n
      · rw [powIntPos, if_neg h1, if_pos h2, if_pos hsw]
        exact memI_pair _ _ _ hbetween.symm
      · rw [powIntPos, if_neg h1, if_pos h2, if_neg hsw]
        exact memI_pair _ _ _ hbetween
    · have hmax : 0 < I.max_val := not_le.mp h2
      by_cases hev : n % 2 = 0
      · -- spanning zero, even exponent: the epsilon case
        rw [powIntPos, if_neg h1, if_neg h2, if_pos hev]
        have heps : eps9 ≤ a ^ n := by
          rcases hside with h | h | h
          · exact absurd ⟨hmin, hmax⟩ h
          · omega
          · exact h
        have habs : |a| ≤ max |I.min_val| |I.max_val| := by
          rw [abs_le]
          constructor
          · linarith [neg_abs_le I.min_val, le_max_left |I.min_val| |I.max_val|]
          · exact ha2.trans ((le_abs_self _).trans (le_max_right _ _))
        have hup : a ^ n ≤ (max |I.min_val| |I.max_val|) ^ n := by
          rw [← Even.pow_abs (Nat.even_iff.mpr hev) a]
          exact pow_le_pow_left (abs_nonneg _) habs n
        exact memI_pair _ _ _ (Or.inl ⟨heps, hup⟩)
      · -- spanning zero, odd exponent
        rw [powIntPos, if_neg h1, if_neg h2, if_neg hev]
        have ho : Odd n := Nat.odd_iff.mpr (by omega)
        exact memI_pair _ _ _ (Or.inl ⟨ho.strictMono_pow.monotone ha1,
          ho.strictMono_pow.monotone ha2⟩)

/-- Soundness of Interval.pow in every successful case, with the weakened
guarantee in the zero spanning even positive case. -/
lemma pow_sound (I : Interval) (p : ℚ) (C : Interval) (a : ℝ)
    (ha1 : I.min_val ≤ a) (ha2 : a ≤ I.max_val) (hinv : I.invOk)
    (hok : Interval.pow I p = .ok C)
    (hside : I.min_val < 0 → 0 < I.max_val → p.den = 1 → 0 < p.num →
      p.num % 2 = 0 → eps9 ≤ a ^ (p : ℝ)) :
    Interval.memI (a ^ (p : ℝ)) C := by
  unfold Interval.pow at hok
  by_cases h0 : p = 0
  · rw [if_pos h0] at hok
    injection hok with hok
    subst hok
    subst h0
    rw [Rat.cast_zero, Real.rpow_zero]
    exact ⟨le_refl 1, le_refl 1⟩
  · rw [if_neg h0] at hok
    by_cases hden : p.den = 1
    · rw [if_pos hden] at hok
      by_cases hposn : 0 < p.num
      · -- positive integer exponent
        rw [if_pos hposn] at hok
        injection hok with hok
        subst hok
        have hcast : a ^ (p : ℝ) = a ^ p.num.toNat := by
          rw [rat_cast_den_one p hden,
            show (p.num : ℝ) = ((p.num.toNat : ℕ) : ℝ) by
              exact_mod_cast
                (congrArg (fun z : ℤ => (z : ℝ)) (Int.toNat_of_nonneg hposn.le)).symm,
            Real.rpow_natCast]
        rw [hcast]
        refine powIntPos_sound I p.num.toNat a ha1 ha2 ?_
        by_cases hs : I.min_val < 0 ∧ 0 < I.max_val
        · by_cases hpar : p.num.toNat % 2 = 1
          · exact Or.inr (Or.inl hpar)
          · refine Or.inr (Or.inr ?_)
            rw [← hcast]
            exact hside hs.1 hs.2 hden hposn (by omega)
        · exact Or.inl hs
      · rw [if_neg hposn] at hok
        by_cases hspan : I.min_val ≤ 0 ∧ 0 ≤ I.max_val
        · -- negative power of a zero spanning interval: the source fails
          rw [if_pos hspan] at hok
          exact (Except.noConfusion hok)
        · -- negative integer exponent on an interval away from zero
          rw [if_neg hspan] at hok
          injection hok with hok
          subst hok
          have hnum : p.num ≠ 0 := by
            intro h
            exact h0 (by rwa [← Rat.num_eq_zero])
          have hneg : p.num < 0 := by
            rcases lt_trichotomy p.num 0 with h | h | h
            · exact h
            · exact absurd h hnum
            · exact absurd h (by omega)
          set m : ℕ := (-p.num).toNat with hm
          have hcast : a ^ (p : ℝ) = (1 / a) ^ m := by
            rw [rat_cast_den_one p hden, Real.rpow_intCast,
              show p.num = -(m : ℤ) by omega, zpow_neg, zpow_natCast, one_div,
              inv_pow]
          rw [hcast]
          rcases not_and_or.mp hspan with hc | hc
          · -- the interval is wholly positive
            have hb : 0 < I.min_val := not_le.mp hc
            have hba : 0 < a := hb.trans_le ha1
            have hmem1 : 1 / I.max_val ≤ 1 / a := one_div_le_one_div_of_le hba ha2
            have hmem2 : 1 / a ≤ 1 / I.min_val := one_div_le_one_div_of_le hb ha1
            refine powIntPos_sound ⟨min (1 / I.min_val) (1 / I.max_val),
              max (1 / I.min_val) (1 / I.max_val)⟩ m (1 / a) ?_ ?_ ?_
            · exact le_trans (min_le_right _ _) hmem1
            · exact le_trans hmem2 (le_max_left _ _)
            · refine Or.inl ?_
              rintro ⟨hlo, -⟩
              have hlo2 : min (1 / I.min_val) (1 / I.max_val) < (0 : ℝ) := hlo
              have hpos1 : (0 : ℝ) < 1 / I.min_val := one_div_pos.mpr hb
              have hpos2 : (0 : ℝ) < 1 / I.max_val :=
                one_div_pos.mpr (hb.trans_le hinv)
              have := lt_min_iff.mpr ⟨hpos1, hpos2⟩
              linarith
          · -- the interval is wholly negative
            have hb : I.max_val < 0 := not_le.mp hc
            have hba : a < 0 := lt_of_le_of_lt ha2 hb
            have hbmin : I.min_val < 0 := lt_of_le_of_lt hinv hb
            have hmem1 : 1 / I.max_val ≤ 1 / a :=
              one_div_le_one_div_of_neg_of_le hb ha2
            have hmem2 : 1 / a ≤ 1 / I.min_val :=
              one_div_le_one_div_of_neg_of_le hba ha1
            refine powIntPos_sound ⟨min (1 / I.min_val) (1 / I.max_val),
              max (1 / I.min_val) (1 / I.max_val)⟩ m (1 / a) ?_ ?_ ?_
            · exact le_trans (min_le_right _ _) hmem1
            · exact le_trans hmem2 (le_max_left _ _)
            · refine Or.inl ?_
              rintro ⟨-, hhi⟩
              have hhi2 : (0 : ℝ) < max (1 / I.min_val) (1 / I.max_val) := hhi
              have hm1 : 1 / I.min_val < 0 := div_neg_of_pos_of_neg one_pos hbmin
              have hm2 : 1 / I.max_val < 0 := div_neg_of_pos_of_neg one_pos hb
              have := max_lt_iff.mpr ⟨hm1, hm2⟩
              linarith
    · rw [if_neg hden] at hok
      by_cases hfneg : I.min_val < 0
      · -- fractional power of a negative lower endpoint: the source fails
        rw [if_pos hfneg] at hok
        exact (Except.noConfusion hok)
      · rw [if_neg hfneg] at hok
        by_cases hfz : I.min_val = 0 ∧ p < 0
        · -- zero to a negative fractional power: the source fails
          rw [if_pos hfz] at hok
          exact (Except.noConfusion hok)
        · -- fractional exponent
          rw [if_neg hfz] at hok
          injection hok with hok
          subst hok
          have h0min : 0 ≤ I.min_val := not_lt.mp hfneg
          have hp0 : p ≠ 0 := h0
          have hpr : (p : ℝ) ≠ 0 := fun h => hp0 (by exact_mod_cast h)
          rcases lt_or_gt_of_ne hpr with hp | hp
          · -- negative fractional exponent: the base is strictly positive
            have hminpos : 0 < I.min_val := by
              rcases h0min.lt_or_eq with h | h
              · exact h
              · exact absurd ⟨h.symm, by exact_mod_cast hp⟩ hfz
            have hapos : 0 < a := hminpos.trans_le ha1
            refine memI_pair _ _ _ (Or.inr ⟨?_, ?_⟩)
            · exact Real.rpow_le_rpow_of_nonpos hapos ha2 hp.le
            · exact Real.rpow_le_rpow_of_nonpos hminpos ha1 hp.le
          · refine memI_pair _ _ _ (Or.inl ⟨?_, ?_⟩)
            · exact Real.rpow_le_rpow h0min ha1 hp.le
            · exact Real.rpow_le_rpow (h0min.trans ha1) ha2 hp.le

/-- C1 amended: for intervals A and B with min at most max and concrete
points a in A and b in B, the interval results of addition, subtraction and
multiplication contain the concrete result; so does division whenever it
succeeds; and so does power whenever it succeeds, except that in the single
case of a zero spanning base interval with a positive even integer exponent
the containment is guaranteed only when the concrete power is at least the
epsilon 1e-9 (the code substitutes 1e-9 for the true lower bound zero). -/
theorem C1_interval_soundness (A B : Interval) (a b : ℝ) (p : ℚ)
    (hA : A.invOk) (hB : B.invOk)
    (ha : Interval.memI a A) (hb : Interval.memI b B) :
    Interval.memI (a + b) (A.add B)
    ∧ Interval.memI (a - b) (A.sub B)
    ∧ Interval.memI (a * b) (A.mul B)
    ∧ (∀ C, A.div B = .ok C → Interval.memI (a / b) C)
    ∧ (∀ C, A.pow p = .ok C →
        (A.min_val < 0 → 0 < A.max_val → p.den = 1 → 0 < p.num →
          p.num % 2 = 0 → eps9 ≤ a ^ (p : ℝ)) →
        Interval.memI (a ^ (p : ℝ)) C) := by
  obtain ⟨ha1, ha2⟩ := ha
  obtain ⟨hb1, hb2⟩ := hb
  refine ⟨⟨by simpa [Interval.add] using add_le_add ha1 hb1,
      by simpa [Interval.add] using add_le_add ha2 hb2⟩,
    ⟨by simp only [Interval.sub]; linarith, by simp only [Interval.sub]; linarith⟩,
    ?_, ?_, ?_⟩
  · obtain ⟨h1, h2⟩ := corner_bounds a b A.min_val A.max_val B.min_val B.max_val
      ha1 ha2 hb1 hb2
    exact ⟨h1, h2⟩
  · intro C h
    unfold Interval.div at h
    split_ifs at h with hg
    injection h with h
    subst h
    have hrec : 1 / B.max_val ≤ 1 / b ∧ 1 / b ≤ 1 / B.min_val := by
      rcases not_and_or.mp hg with hc | hc
      · have hpos : 0 < B.min_val := not_le.mp hc
        exact ⟨one_div_le_one_div_of_le (hpos.trans_le hb1) hb2,
          one_div_le_one_div_of_le hpos hb1⟩
      · have hneg : B.max_val < 0 := not_le.mp hc
        exact ⟨one_div_le_one_div_of_neg_of_le hneg hb2,
          one_div_le_one_div_of_neg_of_le (lt_of_le_of_lt hb2 hneg) hb1⟩
    obtain ⟨h1, h2⟩ := corner_bounds a (1 / b) A.min_val A.max_val
      (1 / B.max_val) (1 / B.min_val) ha1 ha2 hrec.1 hrec.2
    rw [div_eq_mul_one_div]
    exact ⟨h1, h2⟩
  · intro C h hside
    exact pow_sound A p C a ha1 ha2 hA h hside

/-- C1 witness: the soundness conjunction at the concrete intervals from one
to two and from three to four, points one and three, exponent two. -/
theorem C1_witness :
    (Interval.mk 1 2).invOk ∧ (Interval.mk 3 4).invOk
    ∧ Interval.memI 1 ⟨1, 2⟩ ∧ Interval.memI 3 ⟨3, 4⟩
    ∧ (Interval.memI (1 + 3) ((Interval.mk 1 2).add ⟨3, 4⟩)
      ∧ Interval.memI (1 - 3) ((Interval.mk 1 2).sub ⟨3, 4⟩)
      ∧ Interval.memI (1 * 3) ((Interval.mk 1 2).mul ⟨3, 4⟩)
      ∧ (∀ C, (Interval.mk 1 2).div ⟨3, 4⟩ = .ok C → Interval.memI (1 / 3) C)
      ∧ (∀ C, (Interval.mk 1 2).pow 2 = .ok C →
          ((Interval.mk 1 2).min_val < 0 → 0 < (Interval.mk 1 2).max_val →
            (2 : ℚ).den = 1 → 0 < (2 : ℚ).num → (2 : ℚ).num % 2 = 0 →
            eps9 ≤ (1 : ℝ) ^ ((2 : ℚ) : ℝ)) →
          Interval.memI ((1 : ℝ) ^ ((2 : ℚ) : ℝ)) C)) :=
  ⟨by norm_num [Interval.invOk], by norm_num [Interval.invOk],
   by norm_num [Interval.memI], by norm_num [Interval.memI],
   C1_interval_soundness ⟨1, 2⟩ ⟨3, 4⟩ 1 3 2
     (by norm_num [Interval.invOk]) (by norm_num [Interval.invOk])
     (by norm_num [Interval.memI]) (by norm_num [Interval.memI])⟩

/-- The sine scan step preserves the running bounds invariant: min at most
max, min at most one, max at least minus one. -/
lemma sinScanStep_preserves (x : Interval) (p : ℝ × ℝ) (k : ℤ)
    (h : p.1 ≤ p.2 ∧ p.1 ≤ 1 ∧ -1 ≤ p.2) :
    (sinScanStep x p k).1 ≤ (sinScanStep x p k).2
    ∧ (sinScanStep x p k).1 ≤ 1 ∧ -1 ≤ (sinScanStep x p k).2 := by
  obtain ⟨h1, h2, h3⟩ := h
  simp only [sinScanStep]
  split_ifs
  · exact ⟨h2, h2, by norm_num⟩
  · exact ⟨h3, by norm_num, h3⟩
  · exact ⟨h1, h2, h3⟩
  · exact ⟨h1, h2, h3⟩

/-- The cosine scan step preserves the running bounds invariant. -/
lemma cosScanStep_preserves (x : Interval) (p : ℝ × ℝ) (k : ℤ)
    (h : p.1 ≤ p.2 ∧ p.1 ≤ 1 ∧ -1 ≤ p.2) :
    (cosScanStep x p k).1 ≤ (cosScanStep x p k).2
    ∧ (cosScanStep x p k).1 ≤ 1 ∧ -1 ≤ (cosScanStep x p k).2 := by
  obtain ⟨h1, h2, h3⟩ := h
  simp only [cosScanStep]
  split_ifs
  · exact ⟨h2, h2, by norm_num⟩
  · exact ⟨h3, by norm_num, h3⟩
  · exact ⟨h1, h2, h3⟩
  · exact ⟨h1, h2, h3⟩

/-- The interval sine always returns an interval with min at most max. -/
lemma intervalSin_invOk (x : Interval) : (intervalSin x).invOk := by
  unfold intervalSin
  split_ifs with h
  · norm_num [Interval.invOk]
  · exact (foldl_inv (fun p : ℝ × ℝ => p.1 ≤ p.2 ∧ p.1 ≤ 1 ∧ -1 ≤ p.2)
      (sinScanStep x) (fun b a hb => sinScanStep_preserves x b a hb)
      (intRange ⌊x.min_val / (Real.pi / 2)⌋ ⌈x.max_val / (Real.pi / 2)⌉)
      (min (Real.sin x.min_val) (Real.sin x.max_val),
       max (Real.sin x.min_val) (Real.sin x.max_val))
      ⟨min_le_max, le_trans (min_le_left _ _) (Real.sin_le_one _),
       le_trans (Real.neg_one_le_sin _) (le_max_left _ _)⟩).1

/-- The interval cosine always returns an interval with min at most max. -/
lemma intervalCos_invOk (x : Interval) : (intervalCos x).invOk := by
  unfold intervalCos
  split_ifs with h
  · norm_num [Interval.invOk]
  · exact (foldl_inv (fun p : ℝ × ℝ => p.1 ≤ p.2 ∧ p.1 ≤ 1 ∧ -1 ≤ p.2)
      (cosScanStep x) (fun b a hb => cosScanStep_preserves x b a hb)
      (intRange ⌊x.min_val / (Real.pi / 2)⌋ ⌈x.max_val / (Real.pi / 2)⌉)
      (min (Real.cos x.min_val) (Real.cos x.max_val),
       max (Real.cos x.min_val) (Real.cos x.max_val))
      ⟨min_le_max, le_trans (min_le_left _ _) (Real.cos_le_one _),
       le_trans (Real.neg_one_le_cos _) (le_max_left _ _)⟩).1

/-- Arccosine is antitone on all of the reals. -/
lemma arccos_antitone {x y : ℝ} (h : x ≤ y) : Real.arccos y ≤ Real.arccos x := by
  unfold Real.arccos
  have := Real.monotone_arcsin h
  linarith

/-- C1 counterexample: zero lies in the interval from minus two to three and
zero squared is zero, but the interval square is (1e-9, 9), which does not
contain zero: the power operator is not sound in the zero spanning even
exponent case, so the claimed soundness of every binary operator fails. -/
theorem C1_counterexample :
    (Interval.mk (-2) 3).invOk
    ∧ Interval.memI 0 ⟨-2, 3⟩
    ∧ Interval.pow ⟨-2, 3⟩ 2 = .ok ⟨eps9, 9⟩
    ∧ ¬ Interval.memI ((0 : ℝ) ^ ((2 : ℚ) : ℝ)) ⟨eps9, 9⟩ := by
  refine ⟨by norm_num [Interval.invOk], by norm_num [Interval.memI],
    pow_neg_two_three_sq, ?_⟩
  have h0 : (0 : ℝ) ^ ((2 : ℚ) : ℝ) = 0 := by
    rw [show ((2 : ℚ) : ℝ) = ((2 : ℕ) : ℝ) by norm_num, Real.rpow_natCast]
    norm_num
  rw [h0]
  rintro ⟨h, -⟩
  norm_num [eps9] at h

/-- C3: every interval operation preserves the invariant min at most max:
add, sub, mul and neg always, and div, pow and acos whenever they succeed;
sin and cos always return ordered bounds as well. -/
theorem C3_invariant_preservation (A B : Interval) (hA : A.invOk) (hB : B.invOk) :
    (A.add B).invOk ∧ (A.sub B).invOk ∧ (A.mul B).invOk
    ∧ (∀ C, A.div B = .ok C → C.invOk)
    ∧ (∀ p C, A.pow p = .ok C → C.invOk)
    ∧ A.neg.invOk
    ∧ (intervalSin A).invOk
    ∧ (intervalCos A).invOk
    ∧ (∀ C, intervalAcos A = .ok C → C.invOk) := by
  have hA2 : A.min_val ≤ A.max_val := hA
  have hB2 : B.min_val ≤ B.max_val := hB
  refine ⟨?_, ?_, ?_, ?_, ?_, ?_, intervalSin_invOk A, intervalCos_invOk A, ?_⟩
  · exact add_le_add hA2 hB2
  · simp only [Interval.sub, Interval.invOk]
    linarith
  · exact le_trans (min4_le_a _ _ _ _) (le_max4_a _ _ _ _)
  · intro C h
    unfold Interval.div at h
    split_ifs at h
    injection h with h
    subst h
    exact le_trans (min4_le_a _ _ _ _) (le_max4_a _ _ _ _)
  · intro p C h
    unfold Interval.pow at h
    split_ifs at h <;>
      first
        | exact (Except.noConfusion h)
        | (injection h with h; subst h; exact le_refl 1)
        | (injection h with h; subst h; exact min_le_max)
  · simp only [Interval.neg, Interval.invOk]
    linarith
  · intro C h
    unfold intervalAcos macos at h
    by_cases hg : A.max_val < -1 ∨ 1 < A.min_val
    · rw [if_pos hg] at h
      exact (Except.noConfusion h)
    · rw [if_neg hg] at h
      by_cases h1 : A.max_val < -1 ∨ 1 < A.max_val
      · rw [if_pos h1] at h
        simp at h
      · rw [if_neg h1] at h
        by_cases h2 : A.min_val < -1 ∨ 1 < A.min_val
        · rw [if_pos h2] at h
          simp at h
        · rw [if_neg h2] at h
          injection h with h
          subst h
          exact arccos_antitone hA2

/-- C3 witness: the invariant conjunction at the concrete intervals from
zero to one and from two to three. -/
theorem C3_witness :
    (Interval.mk 0 1).invOk ∧ (Interval.mk 2 3).invOk
    ∧ (((Interval.mk 0 1).add ⟨2, 3⟩).invOk
      ∧ ((Interval.mk 0 1).sub ⟨2, 3⟩).invOk
      ∧ ((Interval.mk 0 1).mul ⟨2, 3⟩).invOk
      ∧ (∀ C, (Interval.mk 0 1).div ⟨2, 3⟩ = .ok C → C.invOk)
      ∧ (∀ p C, (Interval.mk 0 1).pow p = .ok C → C.invOk)
      ∧ (Interval.mk 0 1).neg.invOk
      ∧ (intervalSin ⟨0, 1⟩).invOk
      ∧ (intervalCos ⟨0, 1⟩).invOk
      ∧ (∀ C, intervalAcos ⟨0, 1⟩ = .ok C → C.invOk)) :=
  ⟨by norm_num [Interval.invOk], by norm_num [Interval.invOk],
   C3_invariant_preservation ⟨0, 1⟩ ⟨2, 3⟩
     (by norm_num [Interval.invOk]) (by norm_num [Interval.invOk])⟩

lemma subs_self (m : Node) : m ∈ m.subs := by
  cases m <;> simp [Node.subs]

lemma mem_subsList {x : Node} {l : List Node} (hx : x ∈ l) {m : Node}
    (hm : m ∈ x.subs) : m ∈ Node.subsList l := by
  induction l with
  | nil => cases hx
  | cons y ys ih =>
    rcases List.mem_cons.mp hx with h | h
    · subst h
      exact List.mem_append.mpr (Or.inl hm)
    · exact List.mem_append.mpr (Or.inr (ih h))

mutual
/-- Reachability through the sub DAG is transitive. -/
theorem subs_trans (root : Node) :
    ∀ m ∈ root.subs, ∀ y ∈ m.subs, y ∈ root.subs := by
  cases root with
  | var name k =>
    intro m hm y hy
    simp only [Node.subs, List.mem_singleton] at hm
    subst hm
    simpa only [Node.subs] using hy
  | add l c k =>
    intro m hm y hy
    simp only [Node.subs] at hm ⊢
    rcases List.mem_cons.mp hm with h | h
    · subst h
      simpa only [Node.subs] using hy
    · exact List.mem_cons.mpr (Or.inr (subsList_trans l m h y hy))
  | mul l c k =>
    intro m hm y hy
    simp only [Node.subs] at hm ⊢
    rcases List.mem_cons.mp hm with h | h
    · subst h
      simpa only [Node.subs] using hy
    · exact List.mem_cons.mpr (Or.inr (subsList_trans l m h y hy))
  | pow a b k =>
    intro m hm y hy
    simp only [Node.subs] at hm ⊢
    rcases List.mem_cons.mp hm with h | h
    · subst h
      simpa only [Node.subs] using hy
    · exact List.mem_cons.mpr (Or.inr (subs_trans a m h y hy))
  | sin a k =>
    intro m hm y hy
    simp only [Node.subs] at hm ⊢
    rcases List.mem_cons.mp hm with h | h
    · subst h
      simpa only [Node.subs] using hy
    · exact List.mem_cons.mpr (Or.inr (subs_trans a m h y hy))
  | cos a k =>
    intro m hm y hy
    simp only [Node.subs] at hm ⊢
    rcases List.mem_cons.mp hm with h | h
    · subst h
      simpa only [Node.subs] using hy
    · exact List.mem_cons.mpr (Or.inr (subs_trans a m h y hy))
  | acos a k =>
    intro m hm y hy
    simp only [Node.subs] at hm ⊢
    rcases List.mem_cons.mp hm with h | h
    · subst h
      simpa only [Node.subs] using hy
    · exact List.mem_cons.mpr (Or.inr (subs_trans a m h y hy))

theorem subsList_trans (l : List Node) :
    ∀ m ∈ Node.subsList l, ∀ y ∈ m.subs, y ∈ Node.subsList l := by
  cases l with
  | nil =>
    intro m hm
    simp only [Node.subsList] at hm
    cases hm
  | cons x xs =>
    intro m hm y hy
    simp only [Node.subsList] at hm ⊢
    rcases List.mem_append.mp hm with h | h
    · exact List.mem_append.mpr (Or.inl (subs_trans x m h y hy))
    · exact List.mem_append.mpr (Or.inr (subsList_trans xs m h y hy))
end

mutual
/-- A reachable node is no larger than the node it is reached from. -/
theorem sizeOf_subs (m : Node) : ∀ y ∈ m.subs, sizeOf y ≤ sizeOf m := by
  cases m with
  | var name k =>
    intro y hy
    simp only [Node.subs, List.mem_singleton] at hy
    subst hy
    exact le_refl _
  | add l c k =>
    intro y hy
    simp only [Node.subs] at hy
    rcases List.mem_cons.mp hy with h | h
    · subst h
      exact le_refl _
    · have := sizeOf_subsList l y h
      simp only [Node.add.sizeOf_spec]
      omega
  | mul l c k =>
    intro y hy
    simp only [Node.subs] at hy
    rcases List.mem_cons.mp hy with h | h
    · subst h
      exact le_refl _
    · have := sizeOf_subsList l y h
      simp only [Node.mul.sizeOf_spec]
      omega
  | pow a b k =>
    intro y hy
    simp only [Node.subs] at hy
    rcases List.mem_cons.mp hy with h | h
    · subst h
      exact le_refl _
    · have := sizeOf_subs a y h
      simp only [Node.pow.sizeOf_spec]
      omega
  | sin a k =>
    intro y hy
    simp only [Node.subs] at hy
    rcases List.mem_cons.mp hy with h | h
    · subst h
      exact le_refl _
    · have := sizeOf_subs a y h
      simp only [Node.sin.sizeOf_spec]
      omega
  | cos a k =>
    intro y hy
    simp only [Node.subs] at hy
    rcases List.mem_cons.mp hy with h | h
    · subst h
      exact le_refl _
    · have := sizeOf_subs a y h
      simp only [Node.cos.sizeOf_spec]
      omega
  | acos a k =>
    intro y hy
    simp only [Node.subs] at hy
    rcases List.mem_cons.mp hy with h | h
    · subst h
      exact le_refl _
    · have := sizeOf_subs a y h
      simp only [Node.acos.sizeOf_spec]
      omega

theorem sizeOf_subsList (l : List Node) :
    ∀ y ∈ Node.subsList l, sizeOf y ≤ sizeOf l := by
  cases l with
  | nil =>
    intro y hy
    simp only [Node.subsList] at hy
    cases hy
  | cons x xs =>
    intro y hy
    simp only [Node.subsList] at hy
    rcases List.mem_append.mp hy with h | h
    · have := sizeOf_subs x y h
      simp only [List.cons.sizeOf_spec]
      omega
    · have := sizeOf_subsList xs y h
      simp only [List.cons.sizeOf_spec]
      omega
end

/-- A key that a cache lookup misses heads no cache entry. -/
lemma lookup_none_not_mem (k : ℕ) :
    ∀ (c : Cache), c.lookup k = none → k ∉ c.map Prod.fst := by
  intro c
  induction c with
  | nil =>
    intro _ hk
    simp at hk
  | cons e es ih =>
    obtain ⟨ek, ev⟩ := e
    intro h hk
    by_cases he : k = ek
    · subst he
      simp [List.lookup] at h
    · simp only [List.map, List.mem_cons] at hk
      rcases hk with hk | hk
      · exact he hk
      · have hbeq : (k == ek) = false := beq_eq_false_iff_ne.mpr he
        have h2 : es.lookup k = none := by
          simpa [List.lookup, hbeq] using h
        exact ih h2 hk

/-- Looking up in a cache extended by a fresh binding under a different key
finds the old binding. -/
lemma lookup_cons_ne (k k2 : ℕ) (vg : ℝ × List ℝ) (c : Cache) (h : k2 ≠ k) :
    ((k, vg) :: c).lookup k2 = c.lookup k2 := by
  have hbeq : (k2 == k) = false := beq_eq_false_iff_ne.mpr h
  simp [List.lookup, hbeq]

mutual
/-- The value component of the uncached valgrad agrees with the plain val
engine. -/
theorem valgradU_fst (m : Node) (dic : Dic) (n : ℕ) :
    (valgradU m dic n).1 = m.val dic := by
  cases m with
  | var name k => rfl
  | add l c k =>
    have ih := valgradUList_fst l dic n
    simp only [valgradU, Node.val, combineAdd, ← ih, List.foldl_map]
  | mul l c k =>
    have ih := valgradUList_fst l dic n
    simp only [valgradU, Node.val, combineMul, ← ih, List.foldl_map]
  | pow a b k =>
    have ih := valgradU_fst a dic n
    simp only [valgradU, Node.val, combinePow, ih]
  | sin a k =>
    have ih := valgradU_fst a dic n
    simp only [valgradU, Node.val, combineSin, ih]
  | cos a k =>
    have ih := valgradU_fst a dic n
    simp only [valgradU, Node.val, combineCos, ih]
  | acos a k =>
    have ih := valgradU_fst a dic n
    simp only [valgradU, Node.val, combineAcos, ih, apply_ite Prod.fst]

theorem valgradUList_fst (l : List Node) (dic : Dic) (n : ℕ) :
    (valgradUList l dic n).map Prod.fst = Node.valList l dic := by
  cases l with
  | nil => rfl
  | cons x xs =>
    have ih1 := valgradU_fst x dic n
    have ih2 := valgradUList_fst xs dic n
    simp only [valgradUList, Node.valList, List.map, ih1, ih2]
end

/-- One memoized step for a leaf node whose fresh computation is a fixed
pair. -/
lemma step_correct_leaf (root : Node) (dic : Dic) (n : ℕ)
    (hK : KeyConsistent root) (m : Node) (k : ℕ) (v : ℝ × List ℝ)
    (hkey : m.key = k) (hm : m ∈ root.subs)
    (hCeq : ∀ cache : Cache, valgradC m dic n cache =
      match cache.lookup k with
      | some vg => (vg, cache)
      | none => (v, (k, v) :: cache))
    (hUeq : valgradU m dic n = v)
    (cache : Cache) (hinv : CacheInv root dic n cache) :
    StepOK root dic n m cache := by
  unfold StepOK
  rw [hCeq cache]
  rcases hc : cache.lookup k with _ | vg
  · -- cache miss
    refine ⟨hUeq.symm, ?_, ?_, ?_, ?_⟩
    · intro k2 v2 hl
      by_cases hk2 : k2 = k
      · subst hk2
        have hv2 : v2 = v := by
          have := hl
          simpa [List.lookup] using this.symm
        exact ⟨m, hm, hkey, by rw [hv2, hUeq]⟩
      · rw [lookup_cons_ne k k2 _ _ hk2] at hl
        exact hinv k2 v2 hl
    · intro k2 v2 h2
      have hk2 : k2 ≠ k := by
        intro h
        subst h
        rw [hc] at h2
        cases h2
      rw [lookup_cons_ne k k2 _ _ hk2]
      exact h2
    · intro k2 hk2
      simp only [List.map_cons, List.mem_cons] at hk2
      rcases hk2 with h | h
      · exact Or.inr ⟨m, subs_self m, by rw [hkey, h]⟩
      · exact Or.inl h
    · intro hnd
      have hknotin : k ∉ cache.map Prod.fst := lookup_none_not_mem k cache hc
      simp only [List.map_cons]
      exact List.nodup_cons.mpr ⟨hknotin, hnd⟩
  · -- cache hit
    obtain ⟨y, hy, hyk, hyu⟩ := hinv k vg hc
    have hym : y = m := hK y hy m hm (by rw [hyk, hkey])
    refine ⟨?_, hinv, fun k2 v2 h2 => h2, fun k2 hk2 => Or.inl hk2, fun h => h⟩
    rw [← hyu, hym]

/-- One memoized step for a node with a single operand, given the guarantees
for the operand. -/
lemma step_correct_unary (root : Node) (dic : Dic) (n : ℕ)
    (hK : KeyConsistent root) (m a : Node) (k : ℕ)
    (F : ℝ × List ℝ → ℝ × List ℝ)
    (hkey : m.key = k) (hma : a ∈ m.subs) (hsz : sizeOf a < sizeOf m)
    (hm : m ∈ root.subs)
    (hCeq : ∀ cache : Cache, valgradC m dic n cache =
      match cache.lookup k with
      | some vg => (vg, cache)
      | none => (F (valgradC a dic n cache).1,
          (k, F (valgradC a dic n cache).1) :: (valgradC a dic n cache).2))
    (hUeq : valgradU m dic n = F (valgradU a dic n))
    (IH : ∀ c2 : Cache, CacheInv root dic n c2 → StepOK root dic n a c2)
    (cache : Cache) (hinv : CacheInv root dic n cache) :
    StepOK root dic n m cache := by
  unfold StepOK
  rw [hCeq cache]
  rcases hc : cache.lookup k with _ | vg
  · -- cache miss: evaluate the operand first
    obtain ⟨ih1, ih2, ih3, ih4, ih5⟩ := IH cache hinv
    refine ⟨?_, ?_, ?_, ?_, ?_⟩
    · rw [ih1, hUeq]
    · intro k2 v2 hl
      by_cases hk2 : k2 = k
      · subst hk2
        have hv2 : v2 = F (valgradC a dic n cache).1 := by
          have := hl
          simpa [List.lookup] using this.symm
        exact ⟨m, hm, hkey, by rw [hv2, ih1, hUeq]⟩
      · rw [lookup_cons_ne k k2 _ _ hk2] at hl
        exact ih2 k2 v2 hl
    · intro k2 v2 h2
      have hk2 : k2 ≠ k := by
        intro h
        subst h
        rw [hc] at h2
        cases h2
      rw [lookup_cons_ne k k2 _ _ hk2]
      exact ih3 k2 v2 h2
    · intro k2 hk2
      simp only [List.map_cons, List.mem_cons] at hk2
      rcases hk2 with h | h
      · exact Or.inr ⟨m, subs_self m, by rw [hkey, h]⟩
      · rcases ih4 k2 h with h2 | ⟨y, hy, hyk⟩
        · exact Or.inl h2
        · exact Or.inr ⟨y, subs_trans m a hma y hy, hyk⟩
    · intro hnd
      have hnotin : k ∉ cache.map Prod.fst := lookup_none_not_mem k cache hc
      have hnd2 := ih5 hnd
      have hknot : k ∉ (valgradC a dic n cache).2.map Prod.fst := by
        intro hkin
        rcases ih4 k hkin with h2 | ⟨y, hy, hyk⟩
        · exact hnotin h2
        · have hyroot : y ∈ root.subs :=
            subs_trans root m hm y (subs_trans m a hma y hy)
          have hym : y = m := hK y hyroot m hm (by rw [hyk, hkey])
          have hsy : sizeOf y ≤ sizeOf a := sizeOf_subs a y hy
          rw [hym] at hsy
          omega
      simp only [List.map_cons]
      exact List.nodup_cons.mpr ⟨hknot, hnd2⟩
  · -- cache hit
    obtain ⟨y, hy, hyk, hyu⟩ := hinv k vg hc
    have hym : y = m := hK y hy m hm (by rw [hyk, hkey])
    refine ⟨?_, hinv, fun k2 v2 h2 => h2, fun k2 hk2 => Or.inl hk2, fun h => h⟩
    rw [← hyu, hym]

/-- One memoized step for a node with an operand list, given the guarantees
for the list evaluation. -/
lemma step_correct_nary (root : Node) (dic : Dic) (n : ℕ)
    (hK : KeyConsistent root) (m : Node) (l : List Node) (k : ℕ)
    (G : List (ℝ × List ℝ) → ℝ × List ℝ)
    (hkey : m.key = k) (hml : ∀ y ∈ Node.subsList l, y ∈ m.subs)
    (hsz : sizeOf l < sizeOf m) (hm : m ∈ root.subs)
    (hCeq : ∀ cache : Cache, valgradC m dic n cache =
      match cache.lookup k with
      | some vg => (vg, cache)
      | none => (G (valgradCList l dic n cache).1,
          (k, G (valgradCList l dic n cache).1) :: (valgradCList l dic n cache).2))
    (hUeq : valgradU m dic n = G (valgradUList l dic n))
    (IHL : ∀ c2 : Cache, CacheInv root dic n c2 → StepOKL root dic n l c2)
    (cache : Cache) (hinv : CacheInv root dic n cache) :
    StepOK root dic n m cache := by
  unfold StepOK
  rw [hCeq cache]
  rcases hc : cache.lookup k with _ | vg
  · obtain ⟨ih1, ih2, ih3, ih4, ih5⟩ := IHL cache hinv
    refine ⟨?_, ?_, ?_, ?_, ?_⟩
    · rw [ih1, hUeq]
    · intro k2 v2 hl
      by_cases hk2 : k2 = k
      · subst hk2
        have hv2 : v2 = G (valgradCList l dic n cache).1 := by
          have := hl
          simpa [List.lookup] using this.symm
        exact ⟨m, hm, hkey, by rw [hv2, ih1, hUeq]⟩
      · rw [lookup_cons_ne k k2 _ _ hk2] at hl
        exact ih2 k2 v2 hl
    · intro k2 v2 h2
      have hk2 : k2 ≠ k := by
        intro h
        subst h
        rw [hc] at h2
        cases h2
      rw [lookup_cons_ne k k2 _ _ hk2]
      exact ih3 k2 v2 h2
    · intro k2 hk2
      simp only [List.map_cons, List.mem_cons] at hk2
      rcases hk2 with h | h
      · exact Or.inr ⟨m, subs_self m, by rw [hkey, h]⟩
      · rcases ih4 k2 h with h2 | ⟨y, hy, hyk⟩
        · exact Or.inl h2
        · exact Or.inr ⟨y, hml y hy, hyk⟩
    · intro hnd
      have hnotin : k ∉ cache.map Prod.fst := lookup_none_not_mem k cache hc
      have hnd2 := ih5 hnd
      have hknot : k ∉ (valgradCList l dic n cache).2.map Prod.fst := by
        intro hkin
        rcases ih4 k hkin with h2 | ⟨y, hy, hyk⟩
        · exact hnotin h2
        · have hyroot : y ∈ root.subs :=
            subs_trans root m hm y (hml y hy)
          have hym : y = m := hK y hyroot m hm (by rw [hyk, hkey])
          have hsy : sizeOf y ≤ sizeOf l := sizeOf_subsList l y hy
          rw [hym] at hsy
          omega
      simp only [List.map_cons]
      exact List.nodup_cons.mpr ⟨hknot, hnd2⟩
  · obtain ⟨y, hy, hyk, hyu⟩ := hinv k vg hc
    have hym : y = m := hK y hy m hm (by rw [hyk, hkey])
    refine ⟨?_, hinv, fun k2 v2 h2 => h2, fun k2 hk2 => Or.inl hk2, fun h => h⟩
    rw [← hyu, hym]

/-- An empty operand list changes nothing. -/
lemma stepL_nil (root : Node) (dic : Dic) (n : ℕ)
    (cache : Cache) (hinv : CacheInv root dic n cache) :
    StepOKL root dic n [] cache := by
  refine ⟨rfl, hinv, fun k v h => h, fun k hk => Or.inl hk, fun h => h⟩

/-- Evaluating a head then the tail composes the guarantees. -/
lemma stepL_cons (root : Node) (dic : Dic) (n : ℕ) (x : Node) (xs : List Node)
    (IHx : ∀ c2 : Cache, CacheInv root dic n c2 → StepOK root dic n x c2)
    (IHxs : ∀ c2 : Cache, CacheInv root dic n c2 → StepOKL root dic n xs c2)
    (cache : Cache) (hinv : CacheInv root dic n cache) :
    StepOKL root dic n (x :: xs) cache := by
  obtain ⟨a1, a2, a3, a4, a5⟩ := IHx cache hinv
  obtain ⟨b1, b2, b3, b4, b5⟩ := IHxs (valgradC x dic n cache).2 a2
  unfold StepOKL
  simp only [valgradCList]
  refine ⟨?_, b2, ?_, ?_, ?_⟩
  · simp only [valgradUList, a1, b1]
  · intro k v h
    exact b3 k v (a3 k v h)
  · intro k hk
    rcases b4 k hk with h | ⟨y, hy, hyk⟩
    · rcases a4 k h with h2 | ⟨y, hy, hyk⟩
      · exact Or.inl h2
      · refine Or.inr ⟨y, ?_, hyk⟩
        simp only [Node.subsList]
        exact List.mem_append.mpr (Or.inl hy)
    · refine Or.inr ⟨y, ?_, hyk⟩
      simp only [Node.subsList]
      exact List.mem_append.mpr (Or.inr hy)
  · intro hnd
    exact b5 (a5 hnd)

mutual
/-- Memoized valgrad gives the uncached result for every node reachable from
a key consistent root, while keeping the cache sound, monotone and
duplicate free. -/
theorem valgradC_correct (root : Node) (dic : Dic) (n : ℕ)
    (hK : KeyConsistent root) (m : Node) (hm : m ∈ root.subs) :
    ∀ cache : Cache, CacheInv root dic n cache → StepOK root dic n m cache := by
  cases m with
  | var name k =>
    exact step_correct_leaf root dic n hK (.var name k) k (varVG dic n name)
      rfl hm (fun cache => rfl) rfl
  | add l c k =>
    have hchildren : ∀ x ∈ l, x ∈ root.subs := fun x hx =>
      subs_trans root (.add l c k) hm x
        (by
          simp only [Node.subs]
          exact List.mem_cons.mpr (Or.inr (mem_subsList hx (subs_self x))))
    exact step_correct_nary root dic n hK (.add l c k) l k (combineAdd n c)
      rfl
      (fun y hy => by
        simp only [Node.subs]
        exact List.mem_cons.mpr (Or.inr hy))
      (by simp only [Node.add.sizeOf_spec]; omega)
      hm (fun cache => rfl) rfl
      (valgradCList_correct root dic n hK l hchildren)
  | mul l c k =>
    have hchildren : ∀ x ∈ l, x ∈ root.subs := fun x hx =>
      subs_trans root (.mul l c k) hm x
        (by
          simp only [Node.subs]
          exact List.mem_cons.mpr (Or.inr (mem_subsList hx (subs_self x))))
    exact step_correct_nary root dic n hK (.mul l c k) l k (combineMul n c)
      rfl
      (fun y hy => by
        simp only [Node.subs]
        exact List.mem_cons.mpr (Or.inr hy))
      (by simp only [Node.mul.sizeOf_spec]; omega)
      hm (fun cache => rfl) rfl
      (valgradCList_correct root dic n hK l hchildren)
  | pow a b k =>
    have hchild : a ∈ root.subs :=
      subs_trans root (.pow a b k) hm a
        (by
          simp only [Node.subs]
          exact List.mem_cons.mpr (Or.inr (subs_self a)))
    exact step_correct_unary root dic n hK (.pow a b k) a k
      (fun r => combinePow n b r.1 r.2) rfl
      (by
        simp only [Node.subs]
        exact List.mem_cons.mpr (Or.inr (subs_self a)))
      (by simp only [Node.pow.sizeOf_spec]; omega)
      hm (fun cache => rfl) rfl
      (valgradC_correct root dic n hK a hchild)
  | sin a k =>
    have hchild : a ∈ root.subs :=
      subs_trans root (.sin a k) hm a
        (by
          simp only [Node.subs]
          exact List.mem_cons.mpr (Or.inr (subs_self a)))
    exact step_correct_unary root dic n hK (.sin a k) a k
      (fun r => combineSin n r.1 r.2) rfl
      (by
        simp only [Node.subs]
        exact List.mem_cons.mpr (Or.inr (subs_self a)))
      (by simp only [Node.sin.sizeOf_spec]; omega)
      hm (fun cache => rfl) rfl
      (valgradC_correct root dic n hK a hchild)
  | cos a k =>
    have hchild : a ∈ root.subs :=
      subs_trans root (.cos a k) hm a
        (by
          simp only [Node.subs]
          exact List.mem_cons.mpr (Or.inr (subs_self a)))
    exact step_correct_unary root dic n hK (.cos a k) a k
      (fun r => combineCos n r.1 r.2) rfl
      (by
        simp only [Node.subs]
        exact List.mem_cons.mpr (Or.inr (subs_self a)))
      (by simp only [Node.cos.sizeOf_spec]; omega)
      hm (fun cache => rfl) rfl
      (valgradC_correct root dic n hK a hchild)
  | acos a k =>
    have hchild : a ∈ root.subs :=
      subs_trans root (.acos a k) hm a
        (by
          simp only [Node.subs]
          exact List.mem_cons.mpr (Or.inr (subs_self a)))
    exact step_correct_unary root dic n hK (.acos a k) a k
      (fun r => combineAcos n r.1 r.2) rfl
      (by
        simp only [Node.subs]
        exact List.mem_cons.mpr (Or.inr (subs_self a)))
      (by simp only [Node.acos.sizeOf_spec]; omega)
      hm (fun cache => rfl) rfl
      (valgradC_correct root dic n hK a hchild)

theorem valgradCList_correct (root : Node) (dic : Dic) (n : ℕ)
    (hK : KeyConsistent root) (l : List Node) (hl : ∀ x ∈ l, x ∈ root.subs) :
    ∀ cache : Cache, CacheInv root dic n cache → StepOKL root dic n l cache := by
  cases l with
  | nil => exact stepL_nil root dic n
  | cons x xs =>
    exact stepL_cons root dic n x xs
      (valgradC_correct root dic n hK x (hl x (List.mem_cons_self x xs)))
      (valgradCList_correct root dic n hK xs
        (fun y hy => hl y (List.mem_cons_of_mem x hy)))
end

/-- C7: on a DAG whose node keys behave like object identities, valgrad with
a fresh per call cache returns the same value and gradient pair as plain
uncached recursive evaluation, and the final cache holds each key at most
once: since every entry is inserted exactly when its node is computed, each
node is evaluated at most once per call however many parents reference
it. -/
theorem C7_memoized_valgrad (root : Node) (dic : Dic) (n : ℕ)
    (hK : KeyConsistent root) :
    (valgradC root dic n []).1 = valgradU root dic n
    ∧ ((valgradC root dic n []).2.map Prod.fst).Nodup := by
  have hempty : CacheInv root dic n [] := by
    intro k vg hl
    simp [List.lookup] at hl
  have h := valgradC_correct root dic n hK root (subs_self root) [] hempty
  exact ⟨h.1, h.2.2.2.2 (by simp)⟩

/-- C7 witness: the shared subexpression w appears twice in z = w times w,
keys are consistent, and the memoized result matches the uncached one with
no key computed twice. -/
theorem C7_witness :
    (valgradC (Node.mul [Node.add [Node.var "x" 0, Node.var "y" 1] 0 2,
        Node.add [Node.var "x" 0, Node.var "y" 1] 0 2] 1 3) dicC8 2 []).1
      = valgradU (Node.mul [Node.add [Node.var "x" 0, Node.var "y" 1] 0 2,
        Node.add [Node.var "x" 0, Node.var "y" 1] 0 2] 1 3) dicC8 2
    ∧ ((valgradC (Node.mul [Node.add [Node.var "x" 0, Node.var "y" 1] 0 2,
        Node.add [Node.var "x" 0, Node.var "y" 1] 0 2] 1 3) dicC8 2
          []).2.map Prod.fst).Nodup := by
  have hk : KeyConsistent (Node.mul [Node.add [Node.var "x" 0, Node.var "y" 1] 0 2,
      Node.add [Node.var "x" 0, Node.var "y" 1] 0 2] 1 3) := by
    intro m1 h1 m2 h2 hkey
    simp only [Node.subs, Node.subsList, List.mem_cons, List.mem_append,
      List.not_mem_nil, or_false] at h1 h2
    rcases h1 with rfl | (rfl | rfl | rfl) | (rfl | rfl | rfl) <;>
      rcases h2 with rfl | (rfl | rfl | rfl) | (rfl | rfl | rfl) <;>
      first
        | rfl
        | (exfalso; simp [Node.key] at hkey)
  exact C7_memoized_valgrad _ dicC8 2 hk

/-- C9: the val and valgrad engines saturate at the arccosine domain
boundary instead of failing: an operand value at least one gives value zero
and the zero gradient, an operand value at most minus one gives value pi and
the zero gradient (both engines are total functions, in contrast with the
strict domain error the interval acos raises). -/
theorem C9_acos_saturating (a : Node) (k : ℕ) (dic : Dic) (n : ℕ)
    (hK : KeyConsistent (Node.acos a k)) :
    (1 ≤ a.val dic →
      (Node.acos a k).val dic = 0
      ∧ (valgradC (Node.acos a k) dic n []).1 = (0, zeros n))
    ∧ (a.val dic ≤ -1 →
      (Node.acos a k).val dic = Real.pi
      ∧ (valgradC (Node.acos a k) dic n []).1 = (Real.pi, zeros n)) := by
  have hempty : CacheInv (Node.acos a k) dic n [] := by
    intro k2 vg hl
    simp [List.lookup] at hl
  have hstep := valgradC_correct (Node.acos a k) dic n hK (Node.acos a k)
    (subs_self _) [] hempty
  have hval : (valgradC (Node.acos a k) dic n []).1
      = combineAcos n (valgradU a dic n).1 (valgradU a dic n).2 := by
    rw [hstep.1]
    simp only [valgradU]
  have hfst : (valgradU a dic n).1 = a.val dic := valgradU_fst a dic n
  constructor
  · intro h1
    constructor
    · simp only [Node.val]
      rw [if_pos h1]
    · rw [hval, hfst]
      unfold combineAcos
      rw [if_pos h1]
  · intro h2
    have hnot1 : ¬(1 ≤ a.val dic) := by linarith
    constructor
    · simp only [Node.val]
      rw [if_neg hnot1, if_pos h2]
    · rw [hval, hfst]
      unfold combineAcos
      rw [if_neg hnot1, if_pos h2]

/-- C9 witness: the saturating policy at the concrete operand value two. -/
theorem C9_witness :
    (Node.acos (Node.var "x" 5) 9).val dicC9 = 0
    ∧ (valgradC (Node.acos (Node.var "x" 5) 9) dicC9 1 []).1 = (0, zeros 1) := by
  have hk : KeyConsistent (Node.acos (Node.var "x" 5) 9) := by
    intro m1 h1 m2 h2 hkey
    simp only [Node.subs, List.mem_cons, List.mem_singleton,
      List.not_mem_nil, or_false] at h1 h2
    rcases h1 with rfl | rfl <;> rcases h2 with rfl | rfl <;>
      first
        | rfl
        | (exfalso; simp [Node.key] at hkey)
  exact (C9_acos_saturating (Node.var "x" 5) 9 dicC9 1 hk).1
    (by norm_num [Node.val, dicC9])

end Customopt
